import Mathlib

/-!
Shallow embedding of the ASR caption post-processing pipeline
(`src/transcribe/asr_results_to_captions.py`).

Times are embedded as exact rationals (`ℚ`); Python floats are used by the
source only for arithmetic and comparisons, both of which are modelled
exactly here.  Lists keep the order of the Python lists.  Python's stable
`sorted(key=s.start)` is modelled by `List.insertionSort` on the relation
`a.start ≤ b.start`, which is a stable sort, hence produces the same list
as Python's stable mergesort.
-/

namespace Captions

/-- `WordTimestamp` from `asr_results_to_captions.py`: one word with its
start/end time in seconds. -/
structure WordTimestamp where
  word : String
  start : ℚ
  «end» : ℚ
deriving DecidableEq, Repr

/-- `ASRSegment` from `asr_results_to_captions.py`: a segment of
transcribed text with timing for the whole segment and for each word.
The optional `chunk_start` tag is the explicit chunk-origin field of
spec §3/§4.2; it is carried by the repository's tests and used only by
the (spec-modelled) word-level zip merge, never by the functions under
`src/`. -/
structure ASRSegment where
  text : String
  start : ℚ
  «end» : ℚ
  words : List WordTimestamp
  chunk_start : Option ℚ := none
deriving DecidableEq, Repr

/-- Python's `str.strip()`: drop whitespace from both ends.  Implemented
structurally on the character list (equivalent to `String.trim`, which is
defined through substring primitives). -/
def pytrim (s : String) : String :=
  ⟨((s.data.dropWhile Char.isWhitespace).reverse.dropWhile Char.isWhitespace).reverse⟩

/-- Python's `" ".join(ws).strip()` over the word texts. -/
def joinWords (ws : List WordTimestamp) : String :=
  pytrim (String.intercalate " " (ws.map (·.word)))

/-- The ordering used by `sorted(segments, key=lambda s: s.start)`. -/
def segLE (a b : ASRSegment) : Prop := a.start ≤ b.start

instance : DecidableRel segLE := fun a b => inferInstanceAs (Decidable (a.start ≤ b.start))

instance : IsTotal ASRSegment segLE := ⟨fun a b => le_total a.start b.start⟩

instance : IsTrans ASRSegment segLE := ⟨fun _ _ _ h h' => le_trans h h'⟩

/-- Python's stable `sorted(segments, key=lambda s: s.start)`. -/
def sortByStart (segments : List ASRSegment) : List ASRSegment :=
  List.insertionSort segLE segments

/-- Python's `int(x)`: truncation toward zero, as applied to the exact
rational value of the float division in `resolve_overlap_conflicts`. -/
def pytrunc (q : ℚ) : ℤ := if q < 0 then ⌈q⌉ else ⌊q⌋

/-- Distance of a segment to the nearer edge of its inferred chunk, as
computed inline in `resolve_overlap_conflicts` (lines 426-443 of
`asr_results_to_captions.py`). -/
def chunkDist (chunk_size overlap : ℚ) (s : ASRSegment) : ℚ :=
  let chunk_idx : ℤ := pytrunc (s.start / (chunk_size - overlap))
  let chunk_start : ℚ := (chunk_idx : ℚ) * (chunk_size - overlap)
  let chunk_end : ℚ := chunk_start + chunk_size
  min (s.start - chunk_start) (chunk_end - s.«end»)

/-- The accumulation loop of `resolve_overlap_conflicts`: `acc` is the
Python `result` list in reverse (so that `result[-1]` is the head), and
the second argument is the remaining sorted input.  When the candidate
overlaps the last accepted segment (`segment.start < prev_segment.end`)
the candidate replaces it iff its chunk-edge distance is strictly
greater; otherwise the candidate is appended. -/
def resolveAux (chunk_size overlap : ℚ) :
    List ASRSegment → List ASRSegment → List ASRSegment
  | acc, [] => acc.reverse
  | [], seg :: rest => resolveAux chunk_size overlap [seg] rest
  | prev :: accRest, seg :: rest =>
      if seg.start < prev.«end» then
        if chunkDist chunk_size overlap prev < chunkDist chunk_size overlap seg then
          resolveAux chunk_size overlap (seg :: accRest) rest
        else
          resolveAux chunk_size overlap (prev :: accRest) rest
      else
        resolveAux chunk_size overlap (seg :: prev :: accRest) rest

/-- `resolve_overlap_conflicts` (lines 391-451): sort by start time, then
walk left to right keeping, at each overlap with the last accepted
segment, the segment with the strictly greater distance to its chunk
edge. -/
def resolve_overlap_conflicts (segments : List ASRSegment)
    (chunk_size overlap : ℚ) : List ASRSegment :=
  resolveAux chunk_size overlap [] (sortByStart segments)

/-- `group_segments_by_gap`'s grouping of the sorted segment list into
maximal runs: a cut falls exactly between adjacent segments whose gap
`curr.start - prev.end` exceeds `max_gap_seconds`. -/
def gapChop (max_gap_seconds : ℚ) : List ASRSegment → List (List ASRSegment)
  | [] => []
  | [s] => [[s]]
  | s :: t :: rest =>
      match gapChop max_gap_seconds (t :: rest) with
      | [] => [[s]]
      | g :: gs =>
          if t.start - s.«end» ≤ max_gap_seconds then (s :: g) :: gs
          else [s] :: g :: gs

/-- Merging of one group in `group_segments_by_gap` (lines 204-237): the
words of the member segments are concatenated, the text is the
space-joined trimmed word text, and the bounds are the first member's
start and the last member's end.  (The `[]` case is unreachable:
`gapChop` only produces nonempty groups.) -/
def mergeGroup : List ASRSegment → ASRSegment
  | [] => { text := "", start := 0, «end» := 0, words := [] }
  | s :: rest =>
      let all_words := (s :: rest).flatMap (·.words)
      { text := joinWords all_words
        start := s.start
        «end» := ((s :: rest).getLast (List.cons_ne_nil s rest)).«end»
        words := all_words }

/-- `group_segments_by_gap` (lines 168-239). -/
def group_segments_by_gap (segments : List ASRSegment)
    (max_gap_seconds : ℚ) : List ASRSegment :=
  (gapChop max_gap_seconds (sortByStart segments)).map mergeGroup

/-- `split_segments_by_word_gap`'s partition of a word list at every
adjacent pair whose gap `next.start - current.end` strictly exceeds
`max_gap_seconds` (the `split_indices` slicing of lines 267-291). -/
def wordGapChop (max_gap_seconds : ℚ) :
    List WordTimestamp → List (List WordTimestamp)
  | [] => []
  | [w] => [[w]]
  | w :: v :: rest =>
      match wordGapChop max_gap_seconds (v :: rest) with
      | [] => [[w]]
      | g :: gs =>
          if v.start - w.«end» ≤ max_gap_seconds then (w :: g) :: gs
          else [w] :: g :: gs

/-- Rebuilding a segment from a run of words, as done by the split paths
of `split_segments_by_word_gap` (lines 293-306) and
`split_long_segments` (lines 352-386): joined trimmed text, bounds from
the first and last word.  (The `[]` case is unreachable: both chops
only produce nonempty runs.) -/
def segOfWords : List WordTimestamp → ASRSegment
  | [] => { text := "", start := 0, «end» := 0, words := [] }
  | w :: ws =>
      { text := joinWords (w :: ws)
        start := w.start
        «end» := ((w :: ws).getLast (List.cons_ne_nil w ws)).«end»
        words := w :: ws }

/-- The body of `split_segments_by_word_gap`'s loop for one segment
(lines 261-306): a segment with at most one word, or with no
over-threshold internal gap, is appended unchanged; otherwise one
rebuilt segment is emitted per run of words. -/
def splitGapOne (max_gap_seconds : ℚ) (segment : ASRSegment) : List ASRSegment :=
  if segment.words.length ≤ 1 then [segment]
  else
    let groups := wordGapChop max_gap_seconds segment.words
    if groups.length = 1 then [segment]
    else groups.map segOfWords

/-- `split_segments_by_word_gap` (lines 242-308). -/
def split_segments_by_word_gap (segments : List ASRSegment)
    (max_gap_seconds : ℚ) : List ASRSegment :=
  segments.flatMap (splitGapOne max_gap_seconds)

/-- The greedy accumulation loop of `split_long_segments` (lines
344-371): `first` is `current_words[0]`, `revCur` holds the rest of
`current_words` in reverse; a word `w` closes the running sub-segment
exactly when `w.end - first.start > max_duration_seconds`. -/
def durChopAux (max_duration_seconds : ℚ) (first : WordTimestamp)
    (revCur : List WordTimestamp) :
    List WordTimestamp → List (List WordTimestamp)
  | [] => [first :: revCur.reverse]
  | w :: rest =>
      if max_duration_seconds < w.«end» - first.start then
        (first :: revCur.reverse) :: durChopAux max_duration_seconds w [] rest
      else
        durChopAux max_duration_seconds first (w :: revCur) rest

/-- The greedy left-to-right partition of a long segment's words in
`split_long_segments`. -/
def durChop (max_duration_seconds : ℚ) :
    List WordTimestamp → List (List WordTimestamp)
  | [] => []
  | w :: rest => durChopAux max_duration_seconds w [] rest

/-- The body of `split_long_segments`'s loop for one segment (lines
330-386): segments within the duration budget, or with at most one
word, pass through unchanged; otherwise the words are partitioned
greedily and one rebuilt segment is emitted per part. -/
def splitLongOne (max_duration_seconds : ℚ) (segment : ASRSegment) : List ASRSegment :=
  if segment.«end» - segment.start ≤ max_duration_seconds then [segment]
  else if segment.words.length ≤ 1 then [segment]
  else (durChop max_duration_seconds segment.words).map segOfWords

/-- `split_long_segments` (lines 311-388). -/
def split_long_segments (segments : List ASRSegment)
    (max_duration_seconds : ℚ) : List ASRSegment :=
  segments.flatMap (splitLongOne max_duration_seconds)

/-- `TranscriptWord` from `schema.py` (the fields used by this pipeline). -/
structure TranscriptWord where
  text : String
  startTime : ℚ
  endTime : ℚ
deriving DecidableEq, Repr

/-- `TranscriptSegment` from `schema.py` (the fields set by this pipeline). -/
structure TranscriptSegment where
  id : String
  startTime : ℚ
  endTime : ℚ
  text : String
  words : Option (List TranscriptWord)
  speakerName : Option String
  rating : Option ℤ
  timestamp : Option String
deriving DecidableEq, Repr

/-- `asr_segments_to_transcript_segments` (lines 454-500): segments whose
trimmed text is empty are skipped; an empty word list becomes `none`. -/
def asr_segments_to_transcript_segments (segments : List ASRSegment) :
    List TranscriptSegment :=
  segments.filterMap fun segment =>
    if pytrim segment.text = "" then none
    else
      some
        { id := ""
          startTime := segment.start
          endTime := segment.«end»
          text := pytrim segment.text
          words :=
            if segment.words.isEmpty then none
            else some (segment.words.map fun w =>
              { text := w.word, startTime := w.start, endTime := w.«end» })
          speakerName := none
          rating := none
          timestamp := none }

/-- `post_process_asr_segments` (lines 726-768): overlap resolution, then
model-specific gap grouping/splitting, then duration bounding, then
projection, in that order. -/
def post_process_asr_segments (segments : List ASRSegment)
    (chunk_size overlap gap_threshold max_duration : ℚ)
    (is_whisper : Bool) : List TranscriptSegment :=
  let s1 := resolve_overlap_conflicts segments chunk_size overlap
  let s2 :=
    if is_whisper then group_segments_by_gap s1 gap_threshold
    else split_segments_by_word_gap s1 gap_threshold
  let s3 := split_long_segments s2 max_duration
  asr_segments_to_transcript_segments s3

/-- The ordering used to time-sort a merged word list (stable, by word
start time). -/
def wordLE (v w : WordTimestamp) : Prop := v.start ≤ w.start

instance : DecidableRel wordLE := fun v w => inferInstanceAs (Decidable (v.start ≤ w.start))

instance : IsTotal WordTimestamp wordLE := ⟨fun v w => le_total v.start w.start⟩

instance : IsTrans WordTimestamp wordLE := ⟨fun _ _ _ h h' => le_trans h h'⟩

/-- Modelled from the spec: the dedup tolerance of the word-level zip
merge (§4.2 "start within tolerance").  The spec fixes no number for the
zip; `0.01` s is the only tolerance the spec names (§4.1/§7). -/
def zipTol : ℚ := 1 / 100

/-- Modelled from the spec (§4.2): the word-level cut of the zip merge
at a midpoint `mid`, for `a` the segment of the earlier chunk and `b`
the segment of the later chunk — keep every word of `a` strictly before
the midpoint and every word of `b` at or after it, drop a `b` word that
duplicates a kept `a` word (same text, start within tolerance, keeping
one copy), and rebuild the merged segment's text/start/end from the
unioned, time-sorted word list. -/
def zipCut (a b : ASRSegment) (mid : ℚ) : ASRSegment :=
  let keptA := a.words.filter fun w => decide (w.start < mid)
  let keptB := (b.words.filter fun w => decide (mid ≤ w.start)).filter fun w =>
    !(keptA.any fun v => decide (v.word = w.word ∧ |v.start - w.start| ≤ zipTol))
  segOfWords (List.insertionSort wordLE (keptA ++ keptB))

/-- Modelled from the spec: `zip_words_in_overlapping_segments` is not
under `src/` — only its tests (`asr_results_to_captions_test.py`) import
it.  Following spec §4.2: when both segments carry explicit
`chunk_start` tags, the earlier-chunk segment is `A`, the later-chunk
segment is `B`, and the cut point is the midpoint of the chunk overlap
region, `(later_chunk_start + earlier_chunk_end) / 2`; when the tags are
not available, the segments are oriented by start time and the fallback
midpoint `(later_segment.start + earlier_segment.end) / 2` is used. -/
def zip_words_in_overlapping_segments (seg1 seg2 : ASRSegment)
    (chunk_size overlap : ℚ) : ASRSegment :=
  match seg1.chunk_start, seg2.chunk_start with
  | some c1, some c2 =>
      let a := if c1 ≤ c2 then seg1 else seg2
      let b := if c1 ≤ c2 then seg2 else seg1
      zipCut a b ((max c1 c2 + (min c1 c2 + chunk_size)) / 2)
  | _, _ =>
      let a := if seg1.start ≤ seg2.start then seg1 else seg2
      let b := if seg1.start ≤ seg2.start then seg2 else seg1
      zipCut a b ((b.start + a.«end») / 2)

/-- Spec-side characterization (§4.4): every word of a running
sub-segment stays within `max_duration_seconds` of the sub-segment's
first word's start. -/
def groupWithin (max_duration_seconds : ℚ) : List WordTimestamp → Prop
  | [] => True
  | w :: ws => ∀ v ∈ ws, v.«end» - w.start ≤ max_duration_seconds

/-- Spec-side characterization (§4.4): a running sub-segment is closed
exactly when the word that starts the next sub-segment would have pushed
it past `max_duration_seconds`. -/
def closesGroup (max_duration_seconds : ℚ) :
    List WordTimestamp → List WordTimestamp → Prop
  | w :: _, v :: _ => max_duration_seconds < v.«end» - w.start
  | _, _ => True

/-- The distance-to-chunk-edge formula exactly as the claim (and spec
§4.2) words it, with `chunk_idx = ⌊segment.start / chunk_stride⌋`. -/
def specChunkDist (chunk_size overlap : ℚ) (s : ASRSegment) : ℚ :=
  let stride := chunk_size - overlap
  let idx : ℤ := ⌊s.start / stride⌋
  min (s.start - idx * stride) (idx * stride + chunk_size - s.«end»)

/-! ### Helper lemmas -/

theorem segOfWords_words (g : List WordTimestamp) : (segOfWords g).words = g := by
  cases g <;> rfl

theorem mergeGroup_words (g : List ASRSegment) :
    (mergeGroup g).words = g.flatMap (·.words) := by
  cases g <;> rfl

theorem flatMap_eq_self {α : Type _} {l : List α} {f : α → List α}
    (h : ∀ x ∈ l, f x = [x]) : l.flatMap f = l := by
  induction l with
  | nil => rfl
  | cons x xs ih =>
      simp only [List.flatMap_cons, h x (by simp), ih fun y hy => h y (by simp [hy])]
      rfl

theorem wordGapChop_flatten (m : ℚ) : ∀ ws, (wordGapChop m ws).flatten = ws
  | [] => rfl
  | [_] => rfl
  | w :: v :: rest => by
      have ih := wordGapChop_flatten m (v :: rest)
      rw [wordGapChop]
      cases h : wordGapChop m (v :: rest) with
      | nil => rw [h] at ih; simp at ih
      | cons g gs =>
          rw [h] at ih
          simp only [List.flatten_cons] at ih
          show (if v.start - w.«end» ≤ m then (w :: g) :: gs
              else [w] :: g :: gs).flatten = w :: v :: rest
          by_cases hc : v.start - w.«end» ≤ m
          · rw [if_pos hc]
            simp only [List.flatten_cons, List.cons_append, ih]
          · rw [if_neg hc]
            simp only [List.flatten_cons, List.singleton_append, ih]

theorem wordGapChop_head (m : ℚ) (w : WordTimestamp) (ws : List WordTimestamp) :
    ∃ t gs, wordGapChop m (w :: ws) = (w :: t) :: gs := by
  cases ws with
  | nil => exact ⟨[], [], rfl⟩
  | cons v rest =>
      rw [wordGapChop]
      cases h : wordGapChop m (v :: rest) with
      | nil => exact ⟨[], [], rfl⟩
      | cons g gs =>
          by_cases hc : v.start - w.«end» ≤ m
          · exact ⟨g, gs, by simp [hc]⟩
          · exact ⟨[], g :: gs, by simp [hc]⟩

theorem wordGapChop_ne_nil (m : ℚ) : ∀ ws, ∀ g ∈ wordGapChop m ws, g ≠ []
  | [], g, hg => by simp [wordGapChop] at hg
  | [w], g, hg => by simp [wordGapChop] at hg; simp [hg]
  | w :: v :: rest, g, hg => by
      have ih := wordGapChop_ne_nil m (v :: rest)
      rw [wordGapChop] at hg
      cases h : wordGapChop m (v :: rest) with
      | nil => rw [h] at hg; simp at hg; simp [hg]
      | cons g0 gs =>
          rw [h] at hg
          by_cases hc : v.start - w.«end» ≤ m <;> simp [hc] at hg <;>
            rcases hg with hg | hg <;>
              first
                | (subst hg; simp)
                | (exact ih g (by rw [h]; simp [hg]))
                | (exact ih g (by rw [h]; simp [hg]))

theorem wordGapChop_chain (m : ℚ) :
    ∀ ws, ∀ g ∈ wordGapChop m ws,
      List.Chain' (fun u v => v.start - u.«end» ≤ m) g
  | [], g, hg => by simp [wordGapChop] at hg
  | [w], g, hg => by simp [wordGapChop] at hg; simp [hg]
  | w :: v :: rest, g, hg => by
      have ih := wordGapChop_chain m (v :: rest)
      rw [wordGapChop] at hg
      obtain ⟨t, gs', hh⟩ := wordGapChop_head m v rest
      rw [hh] at hg
      by_cases hc : v.start - w.«end» ≤ m <;> simp [hc] at hg
      · rcases hg with hg | hg
        · subst hg
          have := ih (v :: t) (by rw [hh]; simp)
          exact List.Chain'.cons hc this
        · exact ih g (by rw [hh]; simp [hg])
      · rcases hg with hg | hg | hg
        · simp [hg]
        · exact ih g (by rw [hh]; simp [hg])
        · exact ih g (by rw [hh]; simp [hg])

theorem wordGapChop_nosplit (m : ℚ) :
    ∀ ws, ws ≠ [] → List.Chain' (fun u v => v.start - u.«end» ≤ m) ws →
      wordGapChop m ws = [ws]
  | [], h, _ => absurd rfl h
  | [w], _, _ => rfl
  | w :: v :: rest, _, hch => by
      rw [List.chain'_cons] at hch
      have ih := wordGapChop_nosplit m (v :: rest) (by simp) hch.2
      rw [wordGapChop, ih]
      simp [hch.1]

/-! ### C7: no split below threshold -/

/-- The concrete example of spec §8: four words with all consecutive
gaps of 0.1 s. -/
def segBirch : ASRSegment :=
  { text := "The birch canoe slid", start := 0, «end» := 2,
    words := [⟨"The", 0, 0.5⟩, ⟨"birch", 0.6, 1⟩, ⟨"canoe", 1.1, 1.5⟩,
              ⟨"slid", 1.6, 2⟩] }

theorem splitGapOne_nosplit (seg : ASRSegment) (m : ℚ)
    (h : List.Chain' (fun u v => v.start - u.«end» ≤ m) seg.words) :
    splitGapOne m seg = [seg] := by
  rw [splitGapOne]
  by_cases hlen : seg.words.length ≤ 1
  · rw [if_pos hlen]
  · rw [if_neg hlen]
    have hne : seg.words ≠ [] := by
      intro hnil; rw [hnil] at hlen; simp at hlen
    simp [wordGapChop_nosplit m seg.words hne h]

/-- C7: a single segment all of whose consecutive word gaps are at most
`max_gap_seconds` passes through `split_segments_by_word_gap` unchanged;
segments with at most one word always pass through; and the concrete
four-word example of spec §8 yields exactly one segment with text
`"The birch canoe slid"`. -/
theorem no_split_below_threshold (seg : ASRSegment) (m : ℚ) :
    (List.Chain' (fun u v => v.start - u.«end» ≤ m) seg.words →
      split_segments_by_word_gap [seg] m = [seg]) ∧
    (seg.words.length ≤ 1 → split_segments_by_word_gap [seg] m = [seg]) ∧
    (split_segments_by_word_gap [segBirch] 2 = [segBirch] ∧
      segBirch.text = "The birch canoe slid") := by
  refine ⟨fun h => ?_, fun h => ?_, ?_, rfl⟩
  · rw [split_segments_by_word_gap, List.flatMap_cons, List.flatMap_nil,
      splitGapOne_nosplit seg m h, List.append_nil]
  · rw [split_segments_by_word_gap, List.flatMap_cons, List.flatMap_nil,
      splitGapOne, if_pos h, List.append_nil]
  · rw [split_segments_by_word_gap, List.flatMap_cons, List.flatMap_nil,
      splitGapOne_nosplit segBirch 2 (by norm_num [segBirch]), List.append_nil]

/-- Witness for `no_split_below_threshold` at the spec §8 example. -/
theorem no_split_below_threshold_witness :
    List.Chain' (fun u v => v.start - u.«end» ≤ (2 : ℚ)) segBirch.words ∧
    split_segments_by_word_gap [segBirch] 2 = [segBirch] :=
  ⟨by norm_num [segBirch],
    (no_split_below_threshold segBirch 2).1 (by norm_num [segBirch])⟩

/-! ### durChop lemmas and C6 -/

theorem durChopAux_head (d : ℚ) :
    ∀ (l : List WordTimestamp) (first : WordTimestamp) (revCur : List WordTimestamp),
      ∃ t gs, durChopAux d first revCur l = (first :: t) :: gs
  | [], first, revCur => ⟨revCur.reverse, [], rfl⟩
  | w :: rest, first, revCur => by
      rw [durChopAux]
      by_cases hc : d < w.«end» - first.start
      · exact ⟨revCur.reverse, durChopAux d w [] rest, by rw [if_pos hc]⟩
      · obtain ⟨t, gs, ih⟩ := durChopAux_head d rest first (w :: revCur)
        exact ⟨t, gs, by rw [if_neg hc]; exact ih⟩

theorem durChopAux_flatten (d : ℚ) :
    ∀ (l : List WordTimestamp) (first : WordTimestamp) (revCur : List WordTimestamp),
      (durChopAux d first revCur l).flatten = (first :: revCur.reverse) ++ l
  | [], _, _ => by simp [durChopAux]
  | w :: rest, first, revCur => by
      rw [durChopAux]
      by_cases hc : d < w.«end» - first.start
      · rw [if_pos hc]
        simp only [List.flatten_cons, durChopAux_flatten d rest w []]
        simp
      · rw [if_neg hc]
        rw [durChopAux_flatten d rest first (w :: revCur)]
        simp

theorem durChopAux_ne_nil (d : ℚ) :
    ∀ (l : List WordTimestamp) (first : WordTimestamp) (revCur : List WordTimestamp),
      ∀ g ∈ durChopAux d first revCur l, g ≠ []
  | [], first, revCur => by simp [durChopAux]
  | w :: rest, first, revCur => by
      rw [durChopAux]
      by_cases hc : d < w.«end» - first.start
      · rw [if_pos hc]
        intro g hg
        rcases List.mem_cons.1 hg with hg | hg
        · subst hg; simp
        · exact durChopAux_ne_nil d rest w [] g hg
      · rw [if_neg hc]
        exact durChopAux_ne_nil d rest first (w :: revCur)

theorem durChopAux_within (d : ℚ) :
    ∀ (l : List WordTimestamp) (first : WordTimestamp) (revCur : List WordTimestamp),
      (∀ v ∈ revCur, v.«end» - first.start ≤ d) →
      ∀ g ∈ durChopAux d first revCur l, groupWithin d g
  | [], first, revCur => by
      intro hrev g hg
      simp only [durChopAux, List.mem_singleton] at hg
      subst hg
      rw [groupWithin]
      intro v hv
      exact hrev v (List.mem_reverse.1 hv)
  | w :: rest, first, revCur => by
      intro hrev g hg
      rw [durChopAux] at hg
      by_cases hc : d < w.«end» - first.start
      · rw [if_pos hc] at hg
        rcases List.mem_cons.1 hg with hg | hg
        · subst hg
          rw [groupWithin]
          intro v hv
          exact hrev v (List.mem_reverse.1 hv)
        · exact durChopAux_within d rest w [] (by simp) g hg
      · rw [if_neg hc] at hg
        refine durChopAux_within d rest first (w :: revCur) ?_ g hg
        intro v hv
        rcases List.mem_cons.1 hv with hv | hv
        · subst hv; exact le_of_not_lt hc
        · exact hrev v hv

theorem durChopAux_chain (d : ℚ) :
    ∀ (l : List WordTimestamp) (first : WordTimestamp) (revCur : List WordTimestamp),
      List.Chain' (closesGroup d) (durChopAux d first revCur l)
  | [], _, _ => by simp [durChopAux]
  | w :: rest, first, revCur => by
      rw [durChopAux]
      by_cases hc : d < w.«end» - first.start
      · rw [if_pos hc]
        obtain ⟨t, gs, hh⟩ := durChopAux_head d rest w []
        rw [hh]
        refine List.chain'_cons.2 ⟨?_, ?_⟩
        · rw [closesGroup]; exact hc
        · rw [← hh]; exact durChopAux_chain d rest w []
      · rw [if_neg hc]
        exact durChopAux_chain d rest first (w :: revCur)

theorem durChop_flatten (d : ℚ) (ws : List WordTimestamp) :
    (durChop d ws).flatten = ws := by
  cases ws with
  | nil => rfl
  | cons w rest => rw [durChop, durChopAux_flatten]; simp

/-- C6: a segment within the duration ceiling, or with at most one word,
passes through `split_long_segments` unchanged; a longer multi-word
segment is replaced by the greedy left-to-right partition of its words:
the parts concatenate to the original word list, each part is nonempty
and keeps every word's end within `max_duration_seconds` of the part's
first word's start (a word ending exactly at the ceiling stays), and
each part is closed exactly because the first word of the next part
would have exceeded the ceiling. -/
theorem duration_bounding_greedy (seg : ASRSegment) (d : ℚ) :
    ((seg.«end» - seg.start ≤ d ∨ seg.words.length ≤ 1) →
      split_long_segments [seg] d = [seg]) ∧
    (d < seg.«end» - seg.start → 2 ≤ seg.words.length →
      split_long_segments [seg] d = (durChop d seg.words).map segOfWords ∧
      (durChop d seg.words).flatten = seg.words ∧
      (∀ g ∈ durChop d seg.words, g ≠ [] ∧ groupWithin d g) ∧
      List.Chain' (closesGroup d) (durChop d seg.words)) := by
  constructor
  · intro h
    rw [split_long_segments, List.flatMap_cons, List.flatMap_nil, List.append_nil,
      splitLongOne]
    rcases h with h | h
    · rw [if_pos h]
    · by_cases hdur : seg.«end» - seg.start ≤ d
      · rw [if_pos hdur]
      · rw [if_neg hdur, if_pos h]
  · intro hdur hlen
    have hne : seg.words ≠ [] := by
      intro hnil; rw [hnil] at hlen; simp at hlen
    refine ⟨?_, durChop_flatten d seg.words, ?_, ?_⟩
    · rw [split_long_segments, List.flatMap_cons, List.flatMap_nil, List.append_nil,
        splitLongOne, if_neg (not_le.2 hdur), if_neg (by omega)]
    · intro g hg
      cases hws : seg.words with
      | nil => exact absurd hws hne
      | cons w rest =>
          rw [hws, durChop] at hg
          exact ⟨durChopAux_ne_nil d rest w [] g hg,
            durChopAux_within d rest w [] (by simp) g hg⟩
    · cases hws : seg.words with
      | nil => exact absurd hws hne
      | cons w rest => exact durChopAux_chain d rest w []

/-- The witness input for C6: four words spanning 18 s against a 10 s
ceiling; the greedy scan closes the first part before the third word. -/
def segLong : ASRSegment :=
  { text := "alpha beta gamma delta", start := 0, «end» := 18,
    words := [⟨"alpha", 0, 3⟩, ⟨"beta", 4, 9⟩, ⟨"gamma", 9.5, 12⟩,
              ⟨"delta", 13, 18⟩] }

/-- Witness for `duration_bounding_greedy` at `segLong`. -/
theorem duration_bounding_greedy_witness :
    ((10 : ℚ) < segLong.«end» - segLong.start ∧ 2 ≤ segLong.words.length) ∧
    (split_long_segments [segLong] 10 = (durChop 10 segLong.words).map segOfWords ∧
      (durChop 10 segLong.words).flatten = segLong.words ∧
      (∀ g ∈ durChop 10 segLong.words, g ≠ [] ∧ groupWithin 10 g) ∧
      List.Chain' (closesGroup 10) (durChop 10 segLong.words)) :=
  ⟨⟨by norm_num [segLong], by norm_num [segLong]⟩,
    (duration_bounding_greedy segLong 10).2 (by norm_num [segLong])
      (by norm_num [segLong])⟩

/-! ### C4: word conservation -/

/-- The multiset of all words across a list of segments. -/
def wordBag (l : List ASRSegment) : Multiset WordTimestamp :=
  (l.flatMap (·.words) : List WordTimestamp)

theorem gapChop_flatten (m : ℚ) : ∀ l, (gapChop m l).flatten = l
  | [] => rfl
  | [_] => rfl
  | s :: t :: rest => by
      have ih := gapChop_flatten m (t :: rest)
      rw [gapChop]
      cases h : gapChop m (t :: rest) with
      | nil => rw [h] at ih; simp at ih
      | cons g gs =>
          rw [h] at ih
          simp only [List.flatten_cons] at ih
          show (if t.start - s.«end» ≤ m then (s :: g) :: gs
              else [s] :: g :: gs).flatten = s :: t :: rest
          by_cases hc : t.start - s.«end» ≤ m
          · rw [if_pos hc]
            simp only [List.flatten_cons, List.cons_append, ih]
          · rw [if_neg hc]
            simp only [List.flatten_cons, List.singleton_append, ih]

theorem flatMap_words_eq (f : ASRSegment → List ASRSegment)
    (h : ∀ x, (f x).flatMap (·.words) = x.words) :
    ∀ segs : List ASRSegment,
      (segs.flatMap f).flatMap (·.words) = segs.flatMap (·.words)
  | [] => rfl
  | x :: xs => by
      simp only [List.flatMap_cons, List.flatMap_append, h x,
        flatMap_words_eq f h xs]

theorem splitGapOne_words (m : ℚ) (seg : ASRSegment) :
    (splitGapOne m seg).flatMap (·.words) = seg.words := by
  rw [splitGapOne]
  by_cases h1 : seg.words.length ≤ 1
  · rw [if_pos h1]; simp
  · rw [if_neg h1]
    by_cases h2 : (wordGapChop m seg.words).length = 1
    · rw [if_pos h2]; simp
    · rw [if_neg h2]
      rw [List.flatMap_map]
      simp only [segOfWords_words]
      rw [show (fun x : List WordTimestamp => x) = id from rfl, List.flatMap_id]
      exact wordGapChop_flatten m seg.words

theorem splitLongOne_words (d : ℚ) (seg : ASRSegment) :
    (splitLongOne d seg).flatMap (·.words) = seg.words := by
  rw [splitLongOne]
  by_cases h1 : seg.«end» - seg.start ≤ d
  · rw [if_pos h1]; simp
  · rw [if_neg h1]
    by_cases h2 : seg.words.length ≤ 1
    · rw [if_pos h2]; simp
    · rw [if_neg h2]
      rw [List.flatMap_map]
      simp only [segOfWords_words]
      rw [show (fun x : List WordTimestamp => x) = id from rfl, List.flatMap_id]
      exact durChop_flatten d seg.words

theorem mapMergeGroup_words (l : List (List ASRSegment)) :
    (l.map mergeGroup).flatMap (·.words) = l.flatten.flatMap (·.words) := by
  induction l with
  | nil => rfl
  | cons g gs ih =>
      simp only [List.map_cons, List.flatMap_cons, mergeGroup_words,
        List.flatten_cons, List.flatMap_append, ih]

/-- C4: `group_segments_by_gap`, `split_segments_by_word_gap` and
`split_long_segments` each preserve the multiset of words across all
segments, for every input list and every threshold. -/
theorem word_conservation (segs : List ASRSegment) (g d : ℚ) :
    wordBag (group_segments_by_gap segs g) = wordBag segs ∧
    wordBag (split_segments_by_word_gap segs g) = wordBag segs ∧
    wordBag (split_long_segments segs d) = wordBag segs := by
  refine ⟨?_, ?_, ?_⟩
  · rw [wordBag, wordBag, group_segments_by_gap, mapMergeGroup_words,
      gapChop_flatten]
    exact Multiset.coe_eq_coe.2
      ((List.perm_insertionSort segLE segs).flatMap_right _)
  · rw [wordBag, wordBag, split_segments_by_word_gap,
      flatMap_words_eq _ (splitGapOne_words g)]
  · rw [wordBag, wordBag, split_long_segments,
      flatMap_words_eq _ (splitLongOne_words d)]

/-! ### C5: idempotence -/

theorem gapChop_head (m : ℚ) (s : ASRSegment) (rest : List ASRSegment) :
    ∃ t gs, gapChop m (s :: rest) = (s :: t) :: gs := by
  cases rest with
  | nil => exact ⟨[], [], rfl⟩
  | cons v tail =>
      rw [gapChop]
      cases h : gapChop m (v :: tail) with
      | nil => exact ⟨[], [], rfl⟩
      | cons g gs =>
          by_cases hc : v.start - s.«end» ≤ m
          · exact ⟨g, gs, by simp [hc]⟩
          · exact ⟨[], g :: gs, by simp [hc]⟩

theorem mergeGroup_end_cons (s t : ASRSegment) (u : List ASRSegment) :
    (mergeGroup (s :: t :: u)).«end» = (mergeGroup (t :: u)).«end» := by
  simp [mergeGroup, List.getLast_cons]

theorem gapChop_merged_bigGap (m : ℚ) :
    ∀ l, List.Chain' (fun A B => ¬(B.start - A.«end» ≤ m))
      ((gapChop m l).map mergeGroup)
  | [] => by simp [gapChop]
  | [s] => by simp [gapChop]
  | s :: t :: rest => by
      have ih := gapChop_merged_bigGap m (t :: rest)
      obtain ⟨u, gs, hh⟩ := gapChop_head m t rest
      rw [hh, List.map_cons] at ih
      rw [gapChop, hh]
      show List.Chain' _ ((if t.start - s.«end» ≤ m then (s :: t :: u) :: gs
          else [s] :: (t :: u) :: gs).map mergeGroup)
      by_cases hc : t.start - s.«end» ≤ m
      · rw [if_pos hc, List.map_cons]
        cases gs with
        | nil => simp
        | cons G gs' =>
            rw [List.map_cons] at ih ⊢
            obtain ⟨hlink, hchain⟩ := List.chain'_cons.1 ih
            refine List.chain'_cons.2 ⟨?_, hchain⟩
            rw [mergeGroup_end_cons]
            exact hlink
      · rw [if_neg hc, List.map_cons, List.map_cons]
        refine List.chain'_cons.2 ⟨?_, ih⟩
        show ¬((mergeGroup (t :: u)).start - (mergeGroup [s]).«end» ≤ m)
        simpa [mergeGroup] using hc

theorem gapChop_merged_chainLE (m : ℚ) :
    ∀ l, List.Chain' segLE l →
      List.Chain' segLE ((gapChop m l).map mergeGroup)
  | [] => by simp [gapChop]
  | [s] => by simp [gapChop]
  | s :: t :: rest => fun hch => by
      obtain ⟨hst, hch'⟩ := List.chain'_cons.1 hch
      have ih := gapChop_merged_chainLE m (t :: rest) hch'
      obtain ⟨u, gs, hh⟩ := gapChop_head m t rest
      rw [hh, List.map_cons] at ih
      rw [gapChop, hh]
      show List.Chain' _ ((if t.start - s.«end» ≤ m then (s :: t :: u) :: gs
          else [s] :: (t :: u) :: gs).map mergeGroup)
      by_cases hc : t.start - s.«end» ≤ m
      · rw [if_pos hc, List.map_cons]
        cases gs with
        | nil => simp
        | cons G gs' =>
            rw [List.map_cons] at ih ⊢
            obtain ⟨hlink, hchain⟩ := List.chain'_cons.1 ih
            refine List.chain'_cons.2 ⟨?_, hchain⟩
            show segLE (mergeGroup (s :: t :: u)) (mergeGroup G)
            have h1 : (mergeGroup (s :: t :: u)).start = s.start := rfl
            have h2 : (mergeGroup (t :: u)).start = t.start := rfl
            rw [segLE] at hlink ⊢
            rw [h1]
            rw [h2] at hlink
            exact le_trans hst hlink
      · rw [if_neg hc, List.map_cons, List.map_cons]
        refine List.chain'_cons.2 ⟨?_, ih⟩
        exact hst

theorem gapChop_of_bigGap (m : ℚ) :
    ∀ M, List.Chain' (fun A B => ¬(B.start - A.«end» ≤ m)) M →
      gapChop m M = M.map (fun X => [X])
  | [] => fun _ => rfl
  | [_] => fun _ => rfl
  | x :: y :: rest => fun hch => by
      obtain ⟨hxy, hch'⟩ := List.chain'_cons.1 hch
      have ih := gapChop_of_bigGap m (y :: rest) hch'
      rw [gapChop, ih, List.map_cons]
      show (if y.start - x.«end» ≤ m then (x :: [y]) :: rest.map _
          else [x] :: [y] :: rest.map _) = _
      rw [if_neg hxy, List.map_cons, List.map_cons]

theorem mergeGroup_idem (grp : List ASRSegment) :
    mergeGroup [mergeGroup grp] = mergeGroup grp := by
  cases grp with
  | nil => rfl
  | cons s rest => simp [mergeGroup]

theorem durChop_props (d : ℚ) (ws : List WordTimestamp) :
    ∀ g ∈ durChop d ws, g ≠ [] ∧ groupWithin d g := by
  cases ws with
  | nil => simp [durChop]
  | cons w rest =>
      intro g hg
      rw [durChop] at hg
      exact ⟨durChopAux_ne_nil d rest w [] g hg,
        durChopAux_within d rest w [] (by simp) g hg⟩

theorem splitGapOne_fix (m : ℚ) (seg seg' : ASRSegment)
    (h : seg' ∈ splitGapOne m seg) : splitGapOne m seg' = [seg'] := by
  rw [splitGapOne] at h
  by_cases h1 : seg.words.length ≤ 1
  · rw [if_pos h1] at h
    rw [List.mem_singleton] at h
    subst h
    rw [splitGapOne, if_pos h1]
  · rw [if_neg h1] at h
    by_cases h2 : (wordGapChop m seg.words).length = 1
    · rw [if_pos h2] at h
      rw [List.mem_singleton] at h
      subst h
      rw [splitGapOne, if_neg h1]
      simp [h2]
    · rw [if_neg h2] at h
      obtain ⟨g, hg, rfl⟩ := List.mem_map.1 h
      refine splitGapOne_nosplit _ m ?_
      rw [segOfWords_words]
      exact wordGapChop_chain m seg.words g hg

theorem splitLongOne_fix (d : ℚ) (seg seg' : ASRSegment)
    (h : seg' ∈ splitLongOne d seg) : splitLongOne d seg' = [seg'] := by
  rw [splitLongOne] at h
  by_cases h1 : seg.«end» - seg.start ≤ d
  · rw [if_pos h1] at h
    rw [List.mem_singleton] at h
    subst h
    rw [splitLongOne, if_pos h1]
  · rw [if_neg h1] at h
    by_cases h2 : seg.words.length ≤ 1
    · rw [if_pos h2] at h
      rw [List.mem_singleton] at h
      subst h
      rw [splitLongOne, if_neg h1, if_pos h2]
    · rw [if_neg h2] at h
      obtain ⟨g, hg, rfl⟩ := List.mem_map.1 h
      obtain ⟨hne, hwithin⟩ := durChop_props d seg.words g hg
      cases g with
      | nil => exact absurd rfl hne
      | cons w ws =>
          cases ws with
          | nil =>
              rw [splitLongOne]
              by_cases hd : (segOfWords [w]).«end» - (segOfWords [w]).start ≤ d
              · rw [if_pos hd]
              · rw [if_neg hd]
                rw [if_pos (by rw [segOfWords_words]; simp)]
          | cons v t =>
              rw [splitLongOne]
              rw [if_pos ?_]
              have hlast : (segOfWords (w :: v :: t)).«end» =
                  ((v :: t).getLast (List.cons_ne_nil v t)).«end» := by
                simp [segOfWords, List.getLast_cons]
              have hstart : (segOfWords (w :: v :: t)).start = w.start := rfl
              rw [hlast, hstart]
              rw [groupWithin] at hwithin
              exact hwithin _ (List.getLast_mem (List.cons_ne_nil v t))

/-- C5: applying `group_segments_by_gap`, `split_segments_by_word_gap`
or `split_long_segments` twice with the same threshold equals applying
it once, for every input list and threshold. -/
theorem idempotence (segs : List ASRSegment) (g d : ℚ) :
    group_segments_by_gap (group_segments_by_gap segs g) g =
      group_segments_by_gap segs g ∧
    split_segments_by_word_gap (split_segments_by_word_gap segs g) g =
      split_segments_by_word_gap segs g ∧
    split_long_segments (split_long_segments segs d) d =
      split_long_segments segs d := by
  refine ⟨?_, ?_, ?_⟩
  · have hsorted_in : List.Chain' segLE (sortByStart segs) :=
      (List.sorted_insertionSort segLE segs).chain'
    have hM_LE : List.Chain' segLE (group_segments_by_gap segs g) :=
      gapChop_merged_chainLE g _ hsorted_in
    have hM_big : List.Chain' (fun A B => ¬(B.start - A.«end» ≤ g))
        (group_segments_by_gap segs g) := gapChop_merged_bigGap g (sortByStart segs)
    have hMsorted : List.Sorted segLE (group_segments_by_gap segs g) :=
      List.chain'_iff_pairwise.1 hM_LE
    conv_lhs => rw [group_segments_by_gap]
    rw [show sortByStart (group_segments_by_gap segs g) =
        group_segments_by_gap segs g from hMsorted.insertionSort_eq]
    rw [gapChop_of_bigGap g _ hM_big, List.map_map]
    have hmem : ∀ X ∈ group_segments_by_gap segs g,
        (mergeGroup ∘ fun Y => [Y]) X = X := by
      intro X hX
      rw [group_segments_by_gap] at hX
      obtain ⟨grp, _, rfl⟩ := List.mem_map.1 hX
      exact mergeGroup_idem grp
    rw [List.map_congr_left hmem]; exact List.map_id' _
  · rw [show split_segments_by_word_gap (split_segments_by_word_gap segs g) g =
        (split_segments_by_word_gap segs g).flatMap (splitGapOne g) from rfl]
    refine flatMap_eq_self ?_
    intro seg' h'
    rw [split_segments_by_word_gap] at h'
    obtain ⟨seg, _, hmem⟩ := List.mem_flatMap.1 h'
    exact splitGapOne_fix g seg seg' hmem
  · rw [show split_long_segments (split_long_segments segs d) d =
        (split_long_segments segs d).flatMap (splitLongOne d) from rfl]
    refine flatMap_eq_self ?_
    intro seg' h'
    rw [split_long_segments] at h'
    obtain ⟨seg, _, hmem⟩ := List.mem_flatMap.1 h'
    exact splitLongOne_fix d seg seg' hmem

/-! ### C3, C10, C2: overlap resolution -/

theorem resolveAux_chain (cs ov : ℚ) :
    ∀ (pending acc : List ASRSegment),
      List.Pairwise segLE pending →
      (∀ a ∈ acc, ∀ p ∈ pending, a.start ≤ p.start) →
      List.Chain' (fun a b => b.«end» ≤ a.start) acc →
      List.Chain' (fun a b => a.«end» ≤ b.start) (resolveAux cs ov acc pending)
  | [], acc => fun _ _ hacc => by
      rw [resolveAux]
      exact List.chain'_reverse.2 hacc
  | seg :: rest, acc => fun hpair hstart hacc => by
      have hseg : ∀ p ∈ rest, segLE seg p := (List.pairwise_cons.1 hpair).1
      have hpair' : List.Pairwise segLE rest := (List.pairwise_cons.1 hpair).2
      cases acc with
      | nil =>
          rw [resolveAux]
          refine resolveAux_chain cs ov rest [seg] hpair' ?_ (by simp)
          intro a ha p hp
          rw [List.mem_singleton] at ha
          subst ha
          exact hseg p hp
      | cons prev accRest =>
          rw [resolveAux]
          have hps : prev.start ≤ seg.start :=
            hstart prev (by simp) seg (by simp)
          by_cases hov : seg.start < prev.«end»
          · rw [if_pos hov]
            by_cases hd : chunkDist cs ov prev < chunkDist cs ov seg
            · rw [if_pos hd]
              refine resolveAux_chain cs ov rest (seg :: accRest) hpair' ?_ ?_
              · intro a ha p hp
                rcases List.mem_cons.1 ha with rfl | ha
                · exact hseg p hp
                · exact hstart a (by simp [ha]) p (by simp [hp])
              · cases accRest with
                | nil => simp
                | cons x xs =>
                    refine List.chain'_cons.2
                      ⟨le_trans (List.chain'_cons.1 hacc).1 hps,
                        (List.chain'_cons.1 hacc).2⟩
            · rw [if_neg hd]
              refine resolveAux_chain cs ov rest (prev :: accRest) hpair' ?_ hacc
              intro a ha p hp
              exact hstart a ha p (by simp [hp])
          · rw [if_neg hov]
            refine resolveAux_chain cs ov rest (seg :: prev :: accRest) hpair' ?_
              (List.chain'_cons.2 ⟨le_of_not_lt hov, hacc⟩)
            intro a ha p hp
            rcases List.mem_cons.1 ha with rfl | ha
            · exact hseg p hp
            · exact hstart a ha p (by simp [hp])

/-- C3: the output of `resolve_overlap_conflicts` never contains two
time-overlapping segments — in output order, each segment's start is at
least the previous segment's end, for every input and geometry. -/
theorem no_overlap_invariant (segs : List ASRSegment) (cs ov : ℚ) :
    List.Chain' (fun a b => a.«end» ≤ b.start)
      (resolve_overlap_conflicts segs cs ov) := by
  rw [resolve_overlap_conflicts]
  exact resolveAux_chain cs ov (sortByStart segs) []
    (List.sorted_insertionSort segLE segs) (by simp) (by simp)

theorem resolveAux_mem_len (cs ov : ℚ) :
    ∀ (pending acc : List ASRSegment),
      (∀ x ∈ resolveAux cs ov acc pending, x ∈ acc ∨ x ∈ pending) ∧
      (resolveAux cs ov acc pending).length ≤ acc.length + pending.length
  | [], acc => by
      rw [resolveAux]
      refine ⟨fun x hx => Or.inl (List.mem_reverse.1 hx), ?_⟩
      simp
  | seg :: rest, acc => by
      cases acc with
      | nil =>
          rw [resolveAux]
          obtain ⟨ihm, ihl⟩ := resolveAux_mem_len cs ov rest [seg]
          refine ⟨fun x hx => ?_, ?_⟩
          · rcases ihm x hx with h | h
            · rw [List.mem_singleton] at h
              exact Or.inr (by simp [h])
            · exact Or.inr (by simp [h])
          · simp only [List.length_cons, List.length_nil] at ihl ⊢
            omega
      | cons prev accRest =>
          rw [resolveAux]
          by_cases hov : seg.start < prev.«end»
          · rw [if_pos hov]
            by_cases hd : chunkDist cs ov prev < chunkDist cs ov seg
            · rw [if_pos hd]
              obtain ⟨ihm, ihl⟩ := resolveAux_mem_len cs ov rest (seg :: accRest)
              refine ⟨fun x hx => ?_, ?_⟩
              · rcases ihm x hx with h | h
                · rcases List.mem_cons.1 h with rfl | h
                  · exact Or.inr (by simp)
                  · exact Or.inl (by simp [h])
                · exact Or.inr (by simp [h])
              · simp only [List.length_cons] at ihl ⊢
                omega
            · rw [if_neg hd]
              obtain ⟨ihm, ihl⟩ := resolveAux_mem_len cs ov rest (prev :: accRest)
              refine ⟨fun x hx => ?_, ?_⟩
              · rcases ihm x hx with h | h
                · exact Or.inl h
                · exact Or.inr (by simp [h])
              · simp only [List.length_cons] at ihl ⊢
                omega
          · rw [if_neg hov]
            obtain ⟨ihm, ihl⟩ := resolveAux_mem_len cs ov rest (seg :: prev :: accRest)
            refine ⟨fun x hx => ?_, ?_⟩
            · rcases ihm x hx with h | h
              · rcases List.mem_cons.1 h with rfl | h
                · exact Or.inr (by simp)
                · exact Or.inl h
              · exact Or.inr (by simp [h])
            · simp only [List.length_cons] at ihl ⊢
              omega

/-- C10: `resolve_overlap_conflicts` only selects among its input
segments — every output segment is one of the input segments, with all
of its fields unchanged (list membership is whole-record equality) —
and the output is never longer than the input. -/
theorem selection_only (segs : List ASRSegment) (cs ov : ℚ) :
    (∀ x ∈ resolve_overlap_conflicts segs cs ov, x ∈ segs) ∧
    (resolve_overlap_conflicts segs cs ov).length ≤ segs.length := by
  obtain ⟨hm, hl⟩ := resolveAux_mem_len cs ov (sortByStart segs) []
  rw [resolve_overlap_conflicts]
  constructor
  · intro x hx
    rcases hm x hx with h | h
    · simp at h
    · exact (List.perm_insertionSort segLE segs).mem_iff.1 h
  · have hlen : (sortByStart segs).length = segs.length :=
      (List.perm_insertionSort segLE segs).length_eq
    simp only [List.length_nil] at hl
    omega

theorem chunkDist_eq_spec (cs ov : ℚ) (s : ASRSegment)
    (hgeom : ov < cs) (hs : 0 ≤ s.start) :
    chunkDist cs ov s = specChunkDist cs ov s := by
  rw [chunkDist, specChunkDist, pytrunc,
    if_neg (not_lt.2 (div_nonneg hs (by linarith)))]

/-- C2: whenever the scan of `resolve_overlap_conflicts` finds the
candidate overlapping the last accepted segment, it keeps exactly the
segment whose distance to its inferred chunk's nearer edge
(`specChunkDist`, with `chunk_idx = ⌊start / (chunk_size - overlap)⌋`)
is strictly larger, discarding the other entirely; on a tie the
previously accepted segment is kept.  (Stated for nonnegative start
times and a positive chunk stride, where Python's `int` truncation
coincides with the claim's floor.) -/
theorem overlap_winner (cs ov : ℚ) (prev seg : ASRSegment)
    (accRest rest : List ASRSegment)
    (hgeom : ov < cs) (hp : 0 ≤ prev.start) (hs : 0 ≤ seg.start)
    (hov : seg.start < prev.«end») :
    resolveAux cs ov (prev :: accRest) (seg :: rest) =
      resolveAux cs ov
        ((if specChunkDist cs ov prev < specChunkDist cs ov seg then seg
          else prev) :: accRest) rest := by
  rw [resolveAux, if_pos hov, chunkDist_eq_spec cs ov prev hgeom hp,
    chunkDist_eq_spec cs ov seg hgeom hs]
  by_cases hd : specChunkDist cs ov prev < specChunkDist cs ov seg
  · rw [if_pos hd, if_pos hd]
  · rw [if_neg hd, if_neg hd]

/-- Witness inputs for C2: two overlapping word-less segments. -/
def prevSeg : ASRSegment := { text := "a", start := 0, «end» := 8, words := [] }

/-- Second witness input for C2. -/
def candSeg : ASRSegment := { text := "b", start := 1, «end» := 12, words := [] }

/-- Witness for `overlap_winner` at a concrete overlapping pair. -/
theorem overlap_winner_witness :
    ((5 : ℚ) < 30 ∧ (0 : ℚ) ≤ prevSeg.start ∧ (0 : ℚ) ≤ candSeg.start ∧
      candSeg.start < prevSeg.«end») ∧
    resolveAux 30 5 (prevSeg :: []) (candSeg :: []) =
      resolveAux 30 5
        ((if specChunkDist 30 5 prevSeg < specChunkDist 30 5 candSeg then candSeg
          else prevSeg) :: []) [] :=
  ⟨⟨by norm_num, by norm_num [prevSeg], by norm_num [candSeg],
      by norm_num [prevSeg, candSeg]⟩,
    overlap_winner 30 5 prevSeg candSeg [] [] (by norm_num)
      (by norm_num [prevSeg]) (by norm_num [candSeg])
      (by norm_num [prevSeg, candSeg])⟩

/-! ### C1: word-level zip merge -/

theorem zipCut_mem_b (a b : ASRSegment) (mid : ℚ) (w : WordTimestamp)
    (hw : w ∈ b.words) (hmid : mid ≤ w.start)
    (hnc : ∀ v ∈ a.words, ¬(v.word = w.word ∧ |v.start - w.start| ≤ zipTol)) :
    w ∈ (zipCut a b mid).words := by
  simp only [zipCut, segOfWords_words]
  refine (List.perm_insertionSort wordLE _).mem_iff.2 (List.mem_append_right _ ?_)
  rw [List.mem_filter]
  refine ⟨List.mem_filter.2 ⟨hw, by simpa using hmid⟩, ?_⟩
  simp only [Bool.not_eq_true', List.any_eq_false, decide_eq_true_eq]
  intro v hv
  exact hnc v (List.mem_filter.1 hv).1

theorem zipCut_mem_a (a b : ASRSegment) (mid : ℚ) (w : WordTimestamp)
    (hw : w ∈ a.words) (hmid : w.start < mid) :
    w ∈ (zipCut a b mid).words := by
  simp only [zipCut, segOfWords_words]
  refine (List.perm_insertionSort wordLE _).mem_iff.2 (List.mem_append_left _ ?_)
  exact List.mem_filter.2 ⟨hw, by simpa using hmid⟩

/-- C1 (amended): for two segments from adjacent chunks (`seg1` from the
earlier chunk, `seg2` from the later), the word-level zip retains every
word of the later segment at or after the cut midpoint that has no
near-identical counterpart in the earlier segment, and every word of the
earlier segment strictly before the midpoint; in particular, when the
chunks overlap, every later-segment word spoken at or after the earlier
chunk's audio end (`c1 + chunk_size`) with no counterpart is retained —
but words on the far side of the midpoint are discarded even without a
counterpart (see the counterexample). -/
theorem zip_merge_amended (seg1 seg2 : ASRSegment) (chunk_size overlap : ℚ)
    (c1 c2 : ℚ) (h1 : seg1.chunk_start = some c1)
    (h2 : seg2.chunk_start = some c2) (hc : c1 ≤ c2) :
    (∀ w ∈ seg2.words, (c2 + (c1 + chunk_size)) / 2 ≤ w.start →
      (∀ v ∈ seg1.words, ¬(v.word = w.word ∧ |v.start - w.start| ≤ zipTol)) →
      w ∈ (zip_words_in_overlapping_segments seg1 seg2 chunk_size overlap).words) ∧
    (∀ w ∈ seg1.words, w.start < (c2 + (c1 + chunk_size)) / 2 →
      w ∈ (zip_words_in_overlapping_segments seg1 seg2 chunk_size overlap).words) ∧
    (c2 ≤ c1 + chunk_size →
      ∀ w ∈ seg2.words, c1 + chunk_size ≤ w.start →
      (∀ v ∈ seg1.words, ¬(v.word = w.word ∧ |v.start - w.start| ≤ zipTol)) →
      w ∈ (zip_words_in_overlapping_segments seg1 seg2 chunk_size overlap).words) := by
  have hzip : zip_words_in_overlapping_segments seg1 seg2 chunk_size overlap =
      zipCut seg1 seg2 ((c2 + (c1 + chunk_size)) / 2) := by
    rw [zip_words_in_overlapping_segments]
    rw [h1, h2]
    simp only [max_eq_right hc, min_eq_left hc, if_pos hc]
  rw [hzip]
  refine ⟨fun w hw hmid hnc => zipCut_mem_b _ _ _ w hw hmid hnc,
    fun w hw hmid => zipCut_mem_a _ _ _ w hw hmid,
    fun hadj w hw hpast hnc => zipCut_mem_b _ _ _ w hw (by linarith) hnc⟩

/-- Counterexample input for C1: the earlier-chunk segment. -/
def cexA : ASRSegment :=
  { text := "The", start := 26.5, «end» := 26.9,
    words := [⟨"The", 26.5, 26.9⟩], chunk_start := some 0 }

/-- Counterexample input for C1: the later-chunk segment; its word
`"lonely"` starts before the cut midpoint 27.5 and has no counterpart of
any kind in `cexA`. -/
def cexB : ASRSegment :=
  { text := "lonely night", start := 26.8, «end» := 28.5,
    words := [⟨"lonely", 27, 27.3⟩, ⟨"night", 28, 28.5⟩],
    chunk_start := some 25 }

/-- C1 as stated is false: for the temporally overlapping adjacent-chunk
pair `cexA`/`cexB` (chunk size 30, overlap 5), the later segment's word
`"lonely"` has no temporal counterpart in the earlier segment — no word
of `cexA` shares its text, and every word of `cexA` ends before it
starts — yet the zip merge drops it. -/
theorem zip_merge_counterexample :
    cexB.start < cexA.«end» ∧
    (∃ w ∈ cexB.words, w.word = "lonely" ∧
      (∀ v ∈ cexA.words, v.word ≠ w.word) ∧
      (∀ v ∈ cexA.words, v.«end» < w.start)) ∧
    (∀ w ∈ (zip_words_in_overlapping_segments cexA cexB 30 5).words,
      w.word ≠ "lonely") := by
  refine ⟨by norm_num [cexA, cexB], ⟨⟨"lonely", 27, 27.3⟩, by simp [cexB],
    rfl, by simp [cexA], by norm_num [cexA]⟩, ?_⟩
  intro w hw
  have : zip_words_in_overlapping_segments cexA cexB 30 5 =
      zipCut cexA cexB (27.5 : ℚ) := by
    rw [zip_words_in_overlapping_segments]
    norm_num [cexA, cexB]
  rw [this] at hw
  simp only [zipCut, segOfWords_words] at hw
  have hw' := (List.perm_insertionSort wordLE _).mem_iff.1 hw
  rcases List.mem_append.1 hw' with h | h
  · rw [List.mem_filter] at h
    have : w ∈ cexA.words := h.1
    simp only [cexA, List.mem_singleton] at this
    subst this
    simp
  · rw [List.mem_filter] at h
    obtain ⟨hmem, _⟩ := h
    rw [List.mem_filter] at hmem
    obtain ⟨hmem, hge⟩ := hmem
    simp only [decide_eq_true_eq] at hge
    simp only [cexB, List.mem_cons, List.mem_singleton] at hmem
    rcases hmem with rfl | hmem
    · exfalso
      norm_num at hge
    · simp only [List.not_mem_nil, or_false] at hmem
      subst hmem
      simp

/-- Witness inputs for the amended C1: earlier-chunk segment. -/
def witA : ASRSegment :=
  { text := "The", start := 57, «end» := 58,
    words := [⟨"The", 57, 58⟩], chunk_start := some 0 }

/-- Witness inputs for the amended C1: later-chunk segment with a word
past the earlier chunk's audio end. -/
def witB : ASRSegment :=
  { text := "surface", start := 57, «end» := 61,
    words := [⟨"surface", 60, 61⟩], chunk_start := some 50 }

/-- Witness for `zip_merge_amended`: the word `"surface"`, spoken after
the earlier chunk's audio window, survives the zip merge. -/
theorem zip_merge_amended_witness :
    (witA.chunk_start = some 0 ∧ witB.chunk_start = some 50 ∧ (0 : ℚ) ≤ 50 ∧
      (⟨"surface", 60, 61⟩ : WordTimestamp) ∈ witB.words ∧
      ((50 + (0 + 60)) / 2 : ℚ) ≤ 60) ∧
    (⟨"surface", 60, 61⟩ : WordTimestamp) ∈
      (zip_words_in_overlapping_segments witA witB 60 10).words :=
  ⟨⟨rfl, rfl, by norm_num, by simp [witB], by norm_num⟩,
    (zip_merge_amended witA witB 60 10 0 50 rfl rfl (by norm_num)).1
      ⟨"surface", 60, 61⟩ (by simp [witB]) (by norm_num)
      (by norm_num [witA, zipTol])⟩

/-! ### C9 and C8 -/

/-- C9: each pipeline stage applied to an empty input list returns an
empty output list. -/
theorem empty_in_empty_out (chunk_size overlap gap dur : ℚ) :
    resolve_overlap_conflicts [] chunk_size overlap = [] ∧
    group_segments_by_gap [] gap = [] ∧
    split_segments_by_word_gap [] gap = [] ∧
    split_long_segments [] dur = [] ∧
    asr_segments_to_transcript_segments [] = [] :=
  ⟨rfl, rfl, rfl, rfl, rfl⟩

/-- C8: `post_process_asr_segments` is exactly the composition of
overlap resolution, then gap grouping (Whisper) or gap splitting
(Parakeet), then duration bounding, then projection. -/
theorem pipeline_composition (segments : List ASRSegment)
    (chunk_size overlap gap_threshold max_duration : ℚ) (is_whisper : Bool) :
    post_process_asr_segments segments chunk_size overlap gap_threshold
        max_duration is_whisper =
      asr_segments_to_transcript_segments
        (split_long_segments
          (if is_whisper then
            group_segments_by_gap
              (resolve_overlap_conflicts segments chunk_size overlap) gap_threshold
          else
            split_segments_by_word_gap
              (resolve_overlap_conflicts segments chunk_size overlap) gap_threshold)
          max_duration) := by
  cases is_whisper <;> rfl

end Captions
